import Mathlib

/-!
Verification development for the devark-cli hook settings reconciliation
engine: the layered Claude settings model (triggers, matcher groups, hook
entries), the install / uninstall / status / validate operations, the
atomic settings write, and the upload lock.

The upload-lock functions (`isUploadRunning`, `createUploadLock`) are
embedded from the repository source.  The hook-settings operations live in
`src/lib/hooks-manager.ts` / `src/lib/hooks/hooks-controller.ts`, which are
not part of this snapshot; they are modelled from the specification
(sections 3, 4.1, 4.3, 4.4, 4.5) and checked against the behaviours pinned
by `src/lib/__tests__/hooks-manager.test.ts`.
-/

namespace DevArk

/-- Trigger: the fixed enumerated set of lifecycle event names (spec section 3). -/
inductive Trigger
  | SessionStart
  | SessionEnd
  | PreCompact
  | Stop
deriving DecidableEq

/-- HookEntry: a single hook command entry, `type` is always "command" (spec section 3). -/
structure HookEntry where
  type : String
  command : String
deriving DecidableEq

/-- MatcherGroup: a matcher string plus an ordered sequence of hook entries (spec section 3). -/
structure MatcherGroup where
  matcher : String
  hooks : List HookEntry
deriving DecidableEq

/-- The `hooks` key of a settings document: an ordered association of
trigger names to matcher-group sequences (spec section 3). -/
abbrev HooksMap := List (Trigger × List MatcherGroup)

/-- SettingsDocument: the reserved `hooks` key (absent or present) plus
arbitrary other top-level keys preserved verbatim (spec sections 3 and 6). -/
structure SettingsDocument where
  hooks : Option HooksMap
  other : List (String × String)
deriving DecidableEq

/-- The empty settings document (an absent layer degrades to this). -/
def emptySettings : SettingsDocument := ⟨none, []⟩

/-- The hooks map of an optional document; absent document or absent
`hooks` key both yield the empty map. -/
def hooksOf (o : Option SettingsDocument) : HooksMap :=
  match o with
  | none => []
  | some d => d.hooks.getD []

/-- The foreign (not owned) hook entries of a matcher-group sequence, in
document order. -/
def foreignOfGroups (owns : String → Bool) (gs : List MatcherGroup) : List HookEntry :=
  (gs.map (fun g => g.hooks.filter (fun e => !owns e.command))).flatten

/-- The foreign hook entries of a hooks map, in document order. -/
def foreignOfMap (owns : String → Bool) (hm : HooksMap) : List HookEntry :=
  (hm.map (fun p => foreignOfGroups owns p.2)).flatten

/-- The foreign hook entries of an optional settings document. -/
def foreignEntries (owns : String → Bool) (o : Option SettingsDocument) : List HookEntry :=
  foreignOfMap owns (hooksOf o)

/-- The owned hook entries of a hooks map, in document order. -/
def ownedOfMap (owns : String → Bool) (hm : HooksMap) : List HookEntry :=
  (hm.map (fun p => (p.2.map (fun g => g.hooks.filter (fun e => owns e.command))).flatten)).flatten

/-- The owned hook entries of an optional settings document. -/
def ownedEntries (owns : String → Bool) (o : Option SettingsDocument) : List HookEntry :=
  ownedOfMap owns (hooksOf o)

/-- Modelled from the spec: the per-group uninstall filter of section 4.4
(`hooks-manager.ts` is not in the snapshot) — keep exactly the entries the
predicate does not own, preserving their relative order. -/
def filterGroup (owns : String → Bool) (g : MatcherGroup) : MatcherGroup :=
  { g with hooks := g.hooks.filter (fun e => !owns e.command) }

/-- Modelled from the spec: uninstall over one trigger's matcher groups —
filter owned entries out of every group, then drop groups whose hook
sequence became empty (invariant I2). -/
def filterGroups (owns : String → Bool) (gs : List MatcherGroup) : List MatcherGroup :=
  ((gs.map (filterGroup owns)).filter (fun g => !g.hooks.isEmpty))

/-- Modelled from the spec: uninstall over the whole hooks map — apply the
group cleanup under every trigger, then drop triggers whose group sequence
became empty (invariant I2). -/
def uninstallHooksMap (owns : String → Bool) (hm : HooksMap) : HooksMap :=
  ((hm.map (fun p => (p.1, filterGroups owns p.2))).filter (fun p => !p.2.isEmpty))

/-- The typed error of uninstall (spec section 7). -/
inductive UninstallError
  | noHooksFound
deriving DecidableEq

/-- Modelled from the spec: `uninstall(layer)` of section 4.4
(`uninstallDevArkHooks` in `hooks-manager.ts`, not in the snapshot).
Fails with `NoHooksFound` when the document is absent, its `hooks` key is
absent, or no entry anywhere is owned; otherwise removes every owned entry,
applies the I2 cleanup bottom-up, removes the `hooks` key entirely when no
trigger remains, and returns the document to be written back. -/
def uninstallDevArkHooks (owns : String → Bool) (o : Option SettingsDocument) :
    Except UninstallError SettingsDocument :=
  match o with
  | none => .error .noHooksFound
  | some d =>
    match d.hooks with
    | none => .error .noHooksFound
    | some hm =>
      if (ownedOfMap owns hm).isEmpty then .error .noHooksFound
      else
        let hm' := uninstallHooksMap owns hm
        .ok { d with hooks := if hm'.isEmpty then none else some hm' }

/-- Filtering the owned entries out of a group leaves its foreign entries
untouched: the uninstall filter is idempotent on the foreign view. -/
theorem foreignOfGroups_filterGroups (owns : String → Bool) (gs : List MatcherGroup) :
    foreignOfGroups owns (filterGroups owns gs) = foreignOfGroups owns gs := by
  induction gs with
  | nil => rfl
  | cons g gs ih =>
    by_cases h : (filterGroup owns g).hooks.isEmpty = true
    · have hg : g.hooks.filter (fun e => !owns e.command) = [] := by
        simpa [filterGroup, List.isEmpty_iff] using h
      simp [filterGroups, List.filter_cons, h, foreignOfGroups, hg] at ih ⊢
      simpa [filterGroups, foreignOfGroups] using ih
    · simp only [filterGroups, List.map_cons, List.filter_cons, h, Bool.not_false,
        Bool.not_true, if_true]
      simp only [foreignOfGroups, List.map_cons, List.flatten_cons, filterGroup,
        List.filter_filter, Bool.and_self] at ih ⊢
      simpa [filterGroups, foreignOfGroups] using congrArg
        (fun l => g.hooks.filter (fun e => !owns e.command) ++ l) ih

/-- The full uninstall transformation of the hooks map leaves the foreign
entries (set, content, and relative order) untouched. -/
theorem foreignOfMap_uninstallHooksMap (owns : String → Bool) (hm : HooksMap) :
    foreignOfMap owns (uninstallHooksMap owns hm) = foreignOfMap owns hm := by
  induction hm with
  | nil => rfl
  | cons p hm ih =>
    by_cases h : (filterGroups owns p.2).isEmpty = true
    · have hg : foreignOfGroups owns p.2 = [] := by
        have := foreignOfGroups_filterGroups owns p.2
        rw [List.isEmpty_iff] at h
        rw [h] at this
        simpa [foreignOfGroups] using this.symm
      simp only [uninstallHooksMap, List.map_cons, List.filter_cons, h, Bool.not_true,
        if_false, foreignOfMap, List.flatten_cons, hg, List.nil_append] at ih ⊢
      simpa [uninstallHooksMap, foreignOfMap] using ih
    · simp only [uninstallHooksMap, List.map_cons, List.filter_cons, h, Bool.not_false,
        if_true, foreignOfMap, List.map_cons, List.flatten_cons] at ih ⊢
      rw [foreignOfGroups_filterGroups]
      exact congrArg (fun l => foreignOfGroups owns p.2 ++ l)
        (by simpa [uninstallHooksMap, foreignOfMap] using ih)

/-- C1: for every settings document mixing foreign and owned hook entries,
a successful uninstall removes only the owned entries — the written-back
document contains exactly the original foreign entries, with identical
content and relative order. -/
theorem C1_uninstall_preserves_foreign (owns : String → Bool) (d d' : SettingsDocument)
    (h : uninstallDevArkHooks owns (some d) = .ok d') :
    foreignEntries owns (some d') = foreignEntries owns (some d) := by
  obtain ⟨hk, oth⟩ := d
  cases hk with
  | none => simp [uninstallDevArkHooks] at h
  | some hm =>
    by_cases ho : (ownedOfMap owns hm).isEmpty = true
    · simp [uninstallDevArkHooks, ho] at h
    · rw [Bool.not_eq_true] at ho
      simp only [uninstallDevArkHooks, ho, Bool.false_eq_true, if_false,
        Except.ok.injEq] at h
      subst h
      by_cases he : (uninstallHooksMap owns hm).isEmpty = true
      · have h0 : foreignOfMap owns hm = [] := by
          have hfm := foreignOfMap_uninstallHooksMap owns hm
          rw [List.isEmpty_iff] at he
          rw [he] at hfm
          simpa [foreignOfMap] using hfm.symm
        rw [if_pos he]
        exact h0.symm
      · rw [if_neg he]
        exact foreignOfMap_uninstallHooksMap owns hm

/-- Every group surviving the per-trigger cleanup has a nonempty hook list. -/
theorem filterGroups_no_empty_group (owns : String → Bool) (gs : List MatcherGroup) :
    ∀ g ∈ filterGroups owns gs, g.hooks ≠ [] := by
  intro g hg
  rw [filterGroups, List.mem_filter] at hg
  have := hg.2
  simp only [Bool.not_eq_true'] at this
  exact fun hnil => by simp [hnil] at this

/-- Every trigger surviving the map-level cleanup has a nonempty group list,
and each of its groups has a nonempty hook list. -/
theorem uninstallHooksMap_no_empty (owns : String → Bool) (hm : HooksMap) :
    ∀ p ∈ uninstallHooksMap owns hm, p.2 ≠ [] ∧ ∀ g ∈ p.2, g.hooks ≠ [] := by
  intro p hp
  rw [uninstallHooksMap, List.mem_filter] at hp
  obtain ⟨hmem, hne⟩ := hp
  simp only [Bool.not_eq_true'] at hne
  refine ⟨fun hnil => by simp [hnil] at hne, ?_⟩
  rw [List.mem_map] at hmem
  obtain ⟨q, _, hq⟩ := hmem
  intro g hg
  rw [← hq] at hg
  exact filterGroups_no_empty_group owns q.2 g hg

/-- A trigger whose groups survive the cleanup is kept in place, with
exactly its filtered groups. -/
theorem uninstallHooksMap_keeps_nonempty (owns : String → Bool) (hm : HooksMap) :
    ∀ p ∈ hm, filterGroups owns p.2 ≠ [] →
      (p.1, filterGroups owns p.2) ∈ uninstallHooksMap owns hm := by
  intro p hp hne2
  rw [uninstallHooksMap, List.mem_filter]
  refine ⟨List.mem_map.mpr ⟨p, hp, rfl⟩, ?_⟩
  cases hfe : (filterGroups owns p.2).isEmpty
  · simp [hfe]
  · exact absurd (List.isEmpty_iff.mp hfe) hne2

/-- The owned-entry list of a hooks map is empty exactly when no entry
anywhere in it satisfies the ownership predicate. -/
theorem ownedOfMap_eq_nil_iff (owns : String → Bool) (hm : HooksMap) :
    ownedOfMap owns hm = [] ↔
      ∀ p ∈ hm, ∀ g ∈ p.2, ∀ e ∈ g.hooks, owns e.command = false := by
  rw [ownedOfMap, List.flatten_eq_nil_iff]
  constructor
  · intro h p hp g hg e he
    have h1 := h _ (List.mem_map.mpr ⟨p, hp, rfl⟩)
    rw [List.flatten_eq_nil_iff] at h1
    have h2 := h1 _ (List.mem_map.mpr ⟨g, hg, rfl⟩)
    rw [List.filter_eq_nil_iff] at h2
    simpa using h2 e he
  · intro h l hl
    rw [List.mem_map] at hl
    obtain ⟨p, hp, rfl⟩ := hl
    rw [List.flatten_eq_nil_iff]
    intro l2 hl2
    rw [List.mem_map] at hl2
    obtain ⟨g, hg, rfl⟩ := hl2
    rw [List.filter_eq_nil_iff]
    intro e he
    simp [h p hp g hg e he]

/-- C3: after a successful uninstall the cleanup cascades bottom-up —
every surviving matcher group is nonempty, every surviving trigger has a
nonempty group sequence, the `hooks` key is removed exactly when no trigger
remains, and every trigger that still contains entries is left in place
with its filtered groups. -/
theorem C3_uninstall_cleanup_cascade (owns : String → Bool) (d d' : SettingsDocument)
    (h : uninstallDevArkHooks owns (some d) = .ok d') :
    (∀ p ∈ hooksOf (some d'), p.2 ≠ [] ∧ ∀ g ∈ p.2, g.hooks ≠ []) ∧
    (d'.hooks = none ↔ uninstallHooksMap owns (hooksOf (some d)) = []) ∧
    (∀ p ∈ hooksOf (some d), filterGroups owns p.2 ≠ [] →
      (p.1, filterGroups owns p.2) ∈ hooksOf (some d')) := by
  obtain ⟨hk, oth⟩ := d
  cases hk with
  | none => simp [uninstallDevArkHooks] at h
  | some hm =>
    by_cases ho : (ownedOfMap owns hm).isEmpty = true
    · simp [uninstallDevArkHooks, ho] at h
    · rw [Bool.not_eq_true] at ho
      simp only [uninstallDevArkHooks, ho, Bool.false_eq_true, if_false,
        Except.ok.injEq] at h
      subst h
      by_cases he : (uninstallHooksMap owns hm).isEmpty = true
      · rw [List.isEmpty_iff] at he
        refine ⟨?_, ?_, ?_⟩
        · intro p hp
          simp [hooksOf, he] at hp
        · simp [hooksOf, he]
        · intro p hp hne
          exact absurd (he ▸ uninstallHooksMap_keeps_nonempty owns hm p hp hne)
            (List.not_mem_nil _)
      · rw [Bool.not_eq_true] at he
        have hnil : uninstallHooksMap owns hm ≠ [] := by
          intro h0
          rw [h0] at he
          simp at he
        refine ⟨?_, ?_, ?_⟩
        · intro p hp
          simp only [hooksOf, he, Bool.false_eq_true, if_false, Option.getD_some] at hp
          exact uninstallHooksMap_no_empty owns hm p hp
        · simp only [he, Bool.false_eq_true, if_false]
          simp [hooksOf, hnil]
        · intro p hp hne2
          simp only [hooksOf, he, Bool.false_eq_true, if_false, Option.getD_some] at hp ⊢
          exact uninstallHooksMap_keeps_nonempty owns hm p hp hne2

/-- C4: uninstall fails with `NoHooksFound` exactly when no hook entry in
the layer's document is owned (covering an absent document, an absent or
empty `hooks` key, and a document with only foreign entries); the document
is written back only when at least one owned entry was removed. -/
theorem C4_uninstall_noHooksFound (owns : String → Bool) (o : Option SettingsDocument) :
    (uninstallDevArkHooks owns o = .error .noHooksFound ↔
      ∀ p ∈ hooksOf o, ∀ g ∈ p.2, ∀ e ∈ g.hooks, owns e.command = false) ∧
    (∀ d', uninstallDevArkHooks owns o = .ok d' → ownedEntries owns o ≠ []) := by
  have key : uninstallDevArkHooks owns o = .error .noHooksFound ↔
      ownedEntries owns o = [] := by
    cases o with
    | none => simp [uninstallDevArkHooks, ownedEntries, hooksOf, ownedOfMap]
    | some d =>
      obtain ⟨hk, oth⟩ := d
      cases hk with
      | none => simp [uninstallDevArkHooks, ownedEntries, hooksOf, ownedOfMap]
      | some hm =>
        by_cases ho : (ownedOfMap owns hm).isEmpty = true
        · rw [List.isEmpty_iff] at ho
          simp [uninstallDevArkHooks, ownedEntries, hooksOf, ho]
        · rw [Bool.not_eq_true] at ho
          have hone : ownedOfMap owns hm ≠ [] := by
            intro h0
            rw [h0] at ho
            simp at ho
          simp only [uninstallDevArkHooks, ho, Bool.false_eq_true, if_false]
          constructor
          · intro hcon
            cases hcon
          · intro hcon
            exact absurd (by simpa [ownedEntries, hooksOf] using hcon) hone
  constructor
  · rw [key, ownedEntries, ownedOfMap_eq_nil_iff]
  · intro d' hok hnil
    rw [← key] at hnil
    rw [hok] at hnil
    cases hnil

/-- Modelled from the spec: the HookEntry that install appends — always of
type "command" (spec sections 3 and 4.3). -/
def mkEntry (command : String) : HookEntry := ⟨"command", command⟩

/-- Modelled from the spec: locate the matcher group for the given matcher
in a trigger's sequence (first match), append the entry unless an entry
with an identical command already exists in that group (invariant I3, a
no-op success), and create a new group appended at the end when no group
matches (spec section 4.3).  Returns the updated sequence and whether an
entry was added. -/
def addToGroups (matcher command : String) : List MatcherGroup → List MatcherGroup × Bool
  | [] => ([⟨matcher, [mkEntry command]⟩], true)
  | g :: gs =>
    if g.matcher = matcher then
      if g.hooks.any (fun e => e.command = command) then (g :: gs, false)
      else ({ g with hooks := g.hooks ++ [mkEntry command] } :: gs, true)
    else
      let r := addToGroups matcher command gs
      (g :: r.1, r.2)

/-- Modelled from the spec: locate or create the trigger key of the hooks
map, append-only, never reordering existing triggers (spec section 4.3). -/
def addToHooksMap (t : Trigger) (matcher command : String) : HooksMap → HooksMap × Bool
  | [] => ([(t, [⟨matcher, [mkEntry command]⟩])], true)
  | p :: hm =>
    if p.1 = t then
      let r := addToGroups matcher command p.2
      ((p.1, r.1) :: hm, r.2)
    else
      let r := addToHooksMap t matcher command hm
      (p :: r.1, r.2)

/-- Modelled from the spec: `install(layer, trigger, matcher, command)` of
section 4.3 (`hooks-controller.ts` is not in the snapshot).  An absent
document is treated as the empty document; returns the document to be
written back and whether an entry was added. -/
def installHook (o : Option SettingsDocument) (t : Trigger) (matcher command : String) :
    SettingsDocument × Bool :=
  let d := o.getD emptySettings
  let r := addToHooksMap t matcher command (d.hooks.getD [])
  ({ d with hooks := some r.1 }, r.2)

/-- Does the target matcher group (the first group with this matcher)
already contain an entry with an identical command? -/
def targetGroupHas (matcher command : String) : List MatcherGroup → Bool
  | [] => false
  | g :: gs =>
    if g.matcher = matcher then g.hooks.any (fun e => e.command = command)
    else targetGroupHas matcher command gs

/-- Does the target matcher group under the given trigger already contain
an entry with an identical command? -/
def targetHas (t : Trigger) (matcher command : String) : HooksMap → Bool
  | [] => false
  | p :: hm =>
    if p.1 = t then targetGroupHas matcher command p.2
    else targetHas t matcher command hm

/-- When the target group already holds the command, the group-level add is
a no-op that reports no addition; and conversely no addition is reported
only in that situation. -/
theorem addToGroups_noop_iff (matcher command : String) (gs : List MatcherGroup) :
    (addToGroups matcher command gs).2 = false ↔
      targetGroupHas matcher command gs = true := by
  induction gs with
  | nil => simp [addToGroups, targetGroupHas]
  | cons g gs ih =>
    by_cases hg : g.matcher = matcher
    · by_cases hc : g.hooks.any (fun e => e.command = command) = true
      · simp [addToGroups, targetGroupHas, hg, hc]
      · rw [Bool.not_eq_true] at hc
        simp [addToGroups, targetGroupHas, hg, hc]
    · simp [addToGroups, targetGroupHas, hg, ih]

/-- When the target group already holds the command, the group-level add
returns the sequence unchanged. -/
theorem addToGroups_noop_eq (matcher command : String) (gs : List MatcherGroup)
    (h : targetGroupHas matcher command gs = true) :
    addToGroups matcher command gs = (gs, false) := by
  induction gs with
  | nil => simp [targetGroupHas] at h
  | cons g gs ih =>
    by_cases hg : g.matcher = matcher
    · rw [targetGroupHas, if_pos hg] at h
      simp [addToGroups, hg, h]
    · rw [targetGroupHas, if_neg hg] at h
      simp [addToGroups, hg, ih h]

/-- After a group-level add, the target group contains the command. -/
theorem addToGroups_has (matcher command : String) (gs : List MatcherGroup) :
    targetGroupHas matcher command (addToGroups matcher command gs).1 = true := by
  induction gs with
  | nil => simp [addToGroups, targetGroupHas, mkEntry]
  | cons g gs ih =>
    by_cases hg : g.matcher = matcher
    · by_cases hc : g.hooks.any (fun e => e.command = command) = true
      · simp [addToGroups, targetGroupHas, hg, hc]
      · rw [Bool.not_eq_true] at hc
        simp [addToGroups, targetGroupHas, hg, hc, mkEntry]
    · simp [addToGroups, targetGroupHas, hg, ih]

/-- The group-level add is idempotent: running it again on its own output
changes nothing and reports no addition. -/
theorem addToGroups_idem (matcher command : String) (gs : List MatcherGroup) :
    addToGroups matcher command (addToGroups matcher command gs).1 =
      ((addToGroups matcher command gs).1, false) :=
  addToGroups_noop_eq matcher command _ (addToGroups_has matcher command gs)

/-- Map-level analogue of `addToGroups_noop_iff`. -/
theorem addToHooksMap_noop_iff (t : Trigger) (matcher command : String) (hm : HooksMap) :
    (addToHooksMap t matcher command hm).2 = false ↔
      targetHas t matcher command hm = true := by
  induction hm with
  | nil => simp [addToHooksMap, targetHas]
  | cons p hm ih =>
    by_cases hp : p.1 = t
    · simp [addToHooksMap, targetHas, hp, addToGroups_noop_iff]
    · simp [addToHooksMap, targetHas, hp, ih]

/-- Map-level analogue of `addToGroups_noop_eq`. -/
theorem addToHooksMap_noop_eq (t : Trigger) (matcher command : String) (hm : HooksMap)
    (h : targetHas t matcher command hm = true) :
    addToHooksMap t matcher command hm = (hm, false) := by
  induction hm with
  | nil => simp [targetHas] at h
  | cons p hm ih =>
    obtain ⟨pt, pgs⟩ := p
    by_cases hp : pt = t
    · rw [targetHas, if_pos hp] at h
      simp [addToHooksMap, hp, addToGroups_noop_eq matcher command pgs h]
    · rw [targetHas, if_neg hp] at h
      simp [addToHooksMap, hp, ih h]

/-- Map-level analogue of `addToGroups_has`. -/
theorem addToHooksMap_has (t : Trigger) (matcher command : String) (hm : HooksMap) :
    targetHas t matcher command (addToHooksMap t matcher command hm).1 = true := by
  induction hm with
  | nil => simp [addToHooksMap, targetHas, addToGroups_has, targetGroupHas, mkEntry]
  | cons p hm ih =>
    by_cases hp : p.1 = t
    · simp [addToHooksMap, targetHas, hp, addToGroups_has]
    · simp [addToHooksMap, targetHas, hp, ih]

/-- The map-level add is idempotent. -/
theorem addToHooksMap_idem (t : Trigger) (matcher command : String) (hm : HooksMap) :
    addToHooksMap t matcher command (addToHooksMap t matcher command hm).1 =
      ((addToHooksMap t matcher command hm).1, false) :=
  addToHooksMap_noop_eq t matcher command _ (addToHooksMap_has t matcher command hm)

/-- `hooksOf` agrees with the map install reads after the absent-document
fallback. -/
theorem hooksOf_eq_getD (o : Option SettingsDocument) :
    hooksOf o = (o.getD emptySettings).hooks.getD [] := by
  cases o <;> rfl

/-- The group-level add never creates a duplicate command inside any
matcher group. -/
theorem addToGroups_nodup (matcher command : String) (gs : List MatcherGroup)
    (h : ∀ g ∈ gs, (g.hooks.map HookEntry.command).Nodup) :
    ∀ g ∈ (addToGroups matcher command gs).1, (g.hooks.map HookEntry.command).Nodup := by
  induction gs with
  | nil =>
    intro g hg
    simp only [addToGroups, List.mem_singleton] at hg
    subst hg
    simp [mkEntry]
  | cons g gs ih =>
    by_cases hg : g.matcher = matcher
    · by_cases hc : g.hooks.any (fun e => e.command = command) = true
      · simpa [addToGroups, hg, hc] using h
      · rw [Bool.not_eq_true] at hc
        intro g' hg'
        simp only [addToGroups, hg, if_true, hc, Bool.false_eq_true, if_false,
          List.mem_cons] at hg'
        rcases hg' with hg' | hg'
        · subst hg'
          have hd : (g.hooks.map HookEntry.command).Nodup := h g (by simp)
          have hno : command ∉ g.hooks.map HookEntry.command := by
            rw [List.any_eq_false] at hc
            rw [List.mem_map]
            rintro ⟨e, he, hee⟩
            exact absurd (by simpa using hee) (hc e he)
          simp only [List.map_append, mkEntry, List.map_cons, List.map_nil]
          rw [List.nodup_append]
          refine ⟨hd, by simp, ?_⟩
          intro a ha hb
          simp only [List.mem_singleton] at hb
          subst hb
          exact hno ha
        · exact h g' (by simp [hg'])
    · intro g' hg'
      simp only [addToGroups, hg, if_false, List.mem_cons] at hg'
      rcases hg' with hg' | hg'
      · subst hg'
        exact h g' (by simp)
      · exact ih (fun q hq => h q (by simp [hq])) g' hg'

/-- The map-level add never creates a duplicate command inside any matcher
group of any trigger. -/
theorem addToHooksMap_nodup (t : Trigger) (matcher command : String) (hm : HooksMap)
    (h : ∀ p ∈ hm, ∀ g ∈ p.2, (g.hooks.map HookEntry.command).Nodup) :
    ∀ p ∈ (addToHooksMap t matcher command hm).1, ∀ g ∈ p.2,
      (g.hooks.map HookEntry.command).Nodup := by
  induction hm with
  | nil =>
    intro p hp
    simp only [addToHooksMap, List.mem_singleton] at hp
    subst hp
    intro g hg
    simp only [List.mem_singleton] at hg
    subst hg
    simp [mkEntry]
  | cons q hm ih =>
    by_cases hq : q.1 = t
    · intro p hp
      simp only [addToHooksMap, hq, if_true, List.mem_cons] at hp
      rcases hp with hp | hp
      · subst hp
        exact addToGroups_nodup matcher command q.2 (h q (by simp))
      · exact h p (by simp [hp])
    · intro p hp
      simp only [addToHooksMap, hq, if_false, List.mem_cons] at hp
      rcases hp with hp | hp
      · subst hp
        exact h p (by simp)
      · exact ih (fun r hr => h r (by simp [hr])) p hp

/-- C5: install is idempotent — when the target matcher group already
contains an entry with an identical command, install is a no-op success;
installing twice with identical arguments yields the same document as
installing once; and install never leaves two entries with the same
command in any matcher group. -/
theorem C5_install_idempotent (o : Option SettingsDocument) (t : Trigger)
    (matcher command : String) :
    (targetHas t matcher command (hooksOf o) = true →
      installHook o t matcher command = (o.getD emptySettings, false)) ∧
    ((installHook (some (installHook o t matcher command).1) t matcher command).1 =
      (installHook o t matcher command).1) ∧
    ((∀ p ∈ hooksOf o, ∀ g ∈ p.2, (g.hooks.map HookEntry.command).Nodup) →
      ∀ p ∈ hooksOf (some (installHook o t matcher command).1), ∀ g ∈ p.2,
        (g.hooks.map HookEntry.command).Nodup) := by
  refine ⟨?_, ?_, ?_⟩
  · intro h
    rw [hooksOf_eq_getD] at h
    cases o with
    | none => simp [emptySettings, targetHas] at h
    | some d =>
      obtain ⟨hk, oth⟩ := d
      cases hk with
      | none => simp [targetHas] at h
      | some hm =>
        simp only [Option.getD_some] at h ⊢
        simp [installHook, addToHooksMap_noop_eq t matcher command _ h]
  · simp only [installHook, Option.getD_some]
    simp [addToHooksMap_idem]
  · intro h
    have h' : ∀ p ∈ (o.getD emptySettings).hooks.getD [], ∀ g ∈ p.2,
        (g.hooks.map HookEntry.command).Nodup := by
      rw [← hooksOf_eq_getD]; exact h
    intro p hp
    simp only [installHook, hooksOf, Option.getD_some] at hp
    exact addToHooksMap_nodup t matcher command _ h' p hp

/-- Modelled from the spec: does any owned entry occur in a sequence of
matcher groups (section 4.5). -/
def groupsHaveOwned (owns : String → Bool) (gs : List MatcherGroup) : Bool :=
  gs.any (fun g => g.hooks.any (fun e => owns e.command))

/-- Modelled from the spec: the per-trigger `installed` flag of `status`
(`getHookStatus` in `hooks-manager.ts`, not in the snapshot) — true when at
least one owned hook entry exists under the trigger (section 4.5). -/
def triggerInstalled (owns : String → Bool) (o : Option SettingsDocument) (t : Trigger) : Bool :=
  (hooksOf o).any (fun p => decide (p.1 = t) && groupsHaveOwned owns p.2)

/-- Modelled from the spec: the overall `installed` flag of `status` —
true when at least one owned hook entry exists anywhere (section 4.5;
`areHooksInstalled` in `hooks-manager.ts`). -/
def areHooksInstalled (owns : String → Bool) (o : Option SettingsDocument) : Bool :=
  (hooksOf o).any (fun p => groupsHaveOwned owns p.2)

/-- Unfolding equation of `addToGroups` at a cons cell. -/
theorem addToGroups_cons (matcher command : String) (g : MatcherGroup)
    (gs : List MatcherGroup) :
    addToGroups matcher command (g :: gs) =
      if g.matcher = matcher then
        if g.hooks.any (fun e => e.command = command) then (g :: gs, false)
        else ({ g with hooks := g.hooks ++ [mkEntry command] } :: gs, true)
      else ((g :: (addToGroups matcher command gs).1),
        (addToGroups matcher command gs).2) := rfl

/-- Unfolding equation of `addToHooksMap` at a cons cell. -/
theorem addToHooksMap_cons (t : Trigger) (matcher command : String)
    (p : Trigger × List MatcherGroup) (hm : HooksMap) :
    addToHooksMap t matcher command (p :: hm) =
      if p.1 = t then
        ((p.1, (addToGroups matcher command p.2).1) :: hm,
          (addToGroups matcher command p.2).2)
      else ((p :: (addToHooksMap t matcher command hm).1),
        (addToHooksMap t matcher command hm).2) := rfl

/-- After a group-level add, some group holds an entry with the added
command. -/
theorem addToGroups_mem (matcher command : String) (gs : List MatcherGroup) :
    ∃ g ∈ (addToGroups matcher command gs).1, ∃ e ∈ g.hooks, e.command = command := by
  induction gs with
  | nil =>
    refine ⟨⟨matcher, [mkEntry command]⟩, ?_, mkEntry command, by simp, rfl⟩
    simp [addToGroups]
  | cons g gs ih =>
    by_cases hg : g.matcher = matcher
    · by_cases hc : (g.hooks.any fun e => e.command = command) = true
      · have heq : addToGroups matcher command (g :: gs) = (g :: gs, false) := by
          rw [addToGroups_cons, if_pos hg, if_pos hc]
        rw [List.any_eq_true] at hc
        obtain ⟨e, he, hec⟩ := hc
        exact ⟨g, by rw [heq]; exact List.mem_cons_self g gs, e, he, by simpa using hec⟩
      · have heq : addToGroups matcher command (g :: gs) =
            ({ g with hooks := g.hooks ++ [mkEntry command] } :: gs, true) := by
          rw [addToGroups_cons, if_pos hg, if_neg hc]
        refine ⟨{ g with hooks := g.hooks ++ [mkEntry command] },
          by rw [heq]; exact List.mem_cons_self _ gs, mkEntry command, by simp, rfl⟩
    · have heq : (addToGroups matcher command (g :: gs)).1 =
          g :: (addToGroups matcher command gs).1 := by
        rw [addToGroups_cons, if_neg hg]
      obtain ⟨g', hg', e, he, hec⟩ := ih
      exact ⟨g', by rw [heq]; exact List.mem_cons_of_mem g hg', e, he, hec⟩

/-- After a map-level add, the trigger holds an entry with the added
command. -/
theorem addToHooksMap_mem (t : Trigger) (matcher command : String) (hm : HooksMap) :
    ∃ p ∈ (addToHooksMap t matcher command hm).1, p.1 = t ∧
      ∃ g ∈ p.2, ∃ e ∈ g.hooks, e.command = command := by
  induction hm with
  | nil =>
    refine ⟨(t, [⟨matcher, [mkEntry command]⟩]), by simp [addToHooksMap], rfl,
      ⟨matcher, [mkEntry command]⟩, by simp, mkEntry command, by simp, rfl⟩
  | cons q hm ih =>
    by_cases hq : q.1 = t
    · have heq : (addToHooksMap t matcher command (q :: hm)).1 =
          (q.1, (addToGroups matcher command q.2).1) :: hm := by
        rw [addToHooksMap_cons, if_pos hq]
      obtain ⟨g, hg, e, he, hec⟩ := addToGroups_mem matcher command q.2
      exact ⟨(q.1, (addToGroups matcher command q.2).1),
        by rw [heq]; exact List.mem_cons_self _ hm, hq, g, hg, e, he, hec⟩
    · have heq : (addToHooksMap t matcher command (q :: hm)).1 =
          q :: (addToHooksMap t matcher command hm).1 := by
        rw [addToHooksMap_cons, if_neg hq]
      obtain ⟨p, hp, hpt, hrest⟩ := ih
      exact ⟨p, by rw [heq]; exact List.mem_cons_of_mem q hp, hpt, hrest⟩

/-- Uninstall leaves no owned entry anywhere in the reduced hooks map. -/
theorem uninstallHooksMap_removes_owned (owns : String → Bool) (hm : HooksMap) :
    ∀ p ∈ uninstallHooksMap owns hm, ∀ g ∈ p.2, ∀ e ∈ g.hooks,
      owns e.command = false := by
  intro p hp g hg e he
  rw [uninstallHooksMap, List.mem_filter] at hp
  obtain ⟨hp, _⟩ := hp
  rw [List.mem_map] at hp
  obtain ⟨q, _, hq⟩ := hp
  rw [← hq] at hg
  rw [filterGroups, List.mem_filter] at hg
  obtain ⟨hg, _⟩ := hg
  rw [List.mem_map] at hg
  obtain ⟨g0, _, hg0⟩ := hg
  rw [← hg0] at he
  rw [filterGroup] at he
  simp only [List.mem_filter] at he
  have := he.2
  simpa using this

/-- C7: install followed by status reports the trigger installed; a
subsequent uninstall succeeds and status then reports no trigger
installed; in general status reports a trigger installed exactly when at
least one owned hook entry exists under it. -/
theorem C7_install_status_roundtrip (owns : String → Bool) (o : Option SettingsDocument)
    (matcher command : String) (hc : owns command = true) :
    triggerInstalled owns (some (installHook o .SessionStart matcher command).1)
      .SessionStart = true ∧
    (∃ d', uninstallDevArkHooks owns
        (some (installHook o .SessionStart matcher command).1) = .ok d' ∧
      ∀ t, triggerInstalled owns (some d') t = false) ∧
    (∀ o' t, triggerInstalled owns o' t = true ↔
      ∃ p ∈ hooksOf o', p.1 = t ∧ ∃ g ∈ p.2, ∃ e ∈ g.hooks, owns e.command = true) := by
  have characterization : ∀ o' t, triggerInstalled owns o' t = true ↔
      ∃ p ∈ hooksOf o', p.1 = t ∧ ∃ g ∈ p.2, ∃ e ∈ g.hooks, owns e.command = true := by
    intro o' t
    simp [triggerInstalled, groupsHaveOwned, List.any_eq_true]
  obtain ⟨p, hp, hpt, g, hg, e, he, hec⟩ :=
    addToHooksMap_mem .SessionStart matcher command
      ((o.getD emptySettings).hooks.getD [])
  have hmem : ∃ q ∈ hooksOf (some (installHook o .SessionStart matcher command).1),
      q.1 = Trigger.SessionStart ∧ ∃ g' ∈ q.2, ∃ e' ∈ g'.hooks, owns e'.command = true := by
    refine ⟨p, ?_, hpt, g, hg, e, he, by rw [hec]; exact hc⟩
    simpa [installHook, hooksOf] using hp
  refine ⟨(characterization _ _).mpr hmem, ?_, characterization⟩
  set hm1 := (addToHooksMap .SessionStart matcher command
    ((o.getD emptySettings).hooks.getD [])).1 with hhm1
  have howned : ownedOfMap owns hm1 ≠ [] := by
    intro h0
    rw [ownedOfMap_eq_nil_iff] at h0
    obtain ⟨q, hq, _, g', hg', e', he', hoe⟩ := hmem
    have : q ∈ hm1 := by simpa [installHook, hooksOf, hhm1] using hq
    rw [h0 q this g' hg' e' he'] at hoe
    cases hoe
  have hoe : (ownedOfMap owns hm1).isEmpty = false := by
    cases h : (ownedOfMap owns hm1).isEmpty
    · rfl
    · exact absurd (List.isEmpty_iff.mp h) howned
  refine ⟨⟨(if (uninstallHooksMap owns hm1).isEmpty then none
      else some (uninstallHooksMap owns hm1)), (o.getD emptySettings).other⟩, ?_, ?_⟩
  · simp [installHook, uninstallDevArkHooks, hoe, hhm1]
  · intro t
    cases h : triggerInstalled owns (some ⟨(if (uninstallHooksMap owns hm1).isEmpty
        then none else some (uninstallHooksMap owns hm1)),
        (o.getD emptySettings).other⟩) t
    · rfl
    · exfalso
      rw [characterization] at h
      obtain ⟨q, hq, _, g', hg', e', he', hoe'⟩ := h
      by_cases hemp : (uninstallHooksMap owns hm1).isEmpty = true
      · simp [hooksOf, hemp] at hq
      · rw [Bool.not_eq_true] at hemp
        simp only [hooksOf, hemp, Bool.false_eq_true, if_false, Option.getD_some] at hq
        rw [uninstallHooksMap_removes_owned owns hm1 q hq g' hg' e' he'] at hoe'
        cases hoe'

/-- The raw state of a settings file as the loader sees it: missing, or
present with raw content. -/
inductive FileRead
  | enoent
  | content (raw : String)
deriving DecidableEq

/-- Modelled from the spec: `load(layer)` of section 4.1 (the loader of
`hooks-manager.ts` is not in the snapshot) — a missing file yields
*absent*, and a file whose content fails to parse as structured data also
yields *absent*; the structured-data parser is passed in as `parse`. -/
def loadLayer (parse : String → Option SettingsDocument) :
    FileRead → Option SettingsDocument
  | .enoent => none
  | .content raw => parse raw

/-- The shape `readClaudeSettings` returns (pinned by the tests): the
global document or null, the local document or null, and the merged view,
empty when nothing loaded. -/
structure ClaudeSettingsRead where
  globalDoc : Option SettingsDocument
  localDoc : Option SettingsDocument
  merged : SettingsDocument
deriving DecidableEq

/-- Modelled from the spec: `readClaudeSettings` of `hooks-manager.ts`
(not in the snapshot) — load the global layer; an absent or malformed file
degrades to a null document and an empty merged view instead of an error. -/
def readClaudeSettings (parse : String → Option SettingsDocument)
    (globalFile : FileRead) : ClaudeSettingsRead :=
  match loadLayer parse globalFile with
  | none => ⟨none, none, emptySettings⟩
  | some d => ⟨some d, none, d⟩

/-- C8: load never fails on bad input — a missing settings file and a file
whose content does not parse both degrade to the absent/empty state
rather than an error. -/
theorem C8_load_degrades (parse : String → Option SettingsDocument) (raw : String)
    (hraw : parse raw = none) :
    loadLayer parse .enoent = none ∧
    loadLayer parse (.content raw) = none ∧
    readClaudeSettings parse .enoent = ⟨none, none, emptySettings⟩ ∧
    readClaudeSettings parse (.content raw) = ⟨none, none, emptySettings⟩ := by
  refine ⟨rfl, hraw, rfl, ?_⟩
  simp [readClaudeSettings, loadLayer, hraw]

/-- The referenced executable path of a hook command: its first
whitespace-separated token. -/
def commandPath (cmd : String) : String :=
  String.mk (cmd.toList.takeWhile (fun ch => ch ≠ ' '))

/-- The typed diagnostics of `validate` (spec sections 4.5 and 7). -/
inductive ValidationError
  | commandNotFound (path : String)
  | pathMismatch (t : Trigger) (path : String)
  | noHooksInstalled
deriving DecidableEq

/-- The discriminated result of `validate` (spec section 4.5). -/
structure ValidationResult where
  valid : Bool
  errors : List ValidationError
deriving DecidableEq

/-- The owned hook entries of a hooks map tagged with their trigger, in
document order. -/
def ownedTagged (owns : String → Bool) (hm : HooksMap) : List (Trigger × HookEntry) :=
  (hm.map (fun p => (p.2.map (fun g =>
    (g.hooks.filter (fun e => owns e.command)).map (fun e => (p.1, e)))).flatten)).flatten

/-- Modelled from the spec: the two per-entry checks of `validate`
(section 4.5) — the referenced executable path must exist on disk
(otherwise `CommandNotFound: <path>`), and it must equal the currently
configured canonical tool path (otherwise `PathMismatch: <trigger> uses
<path>`). -/
def entryErrors (pathExists : String → Bool) (cliPath : String)
    (te : Trigger × HookEntry) : List ValidationError :=
  (if pathExists (commandPath te.2.command) then []
    else [.commandNotFound (commandPath te.2.command)]) ++
  (if commandPath te.2.command = cliPath then []
    else [.pathMismatch te.1 (commandPath te.2.command)])

/-- Modelled from the spec: `validate` of section 4.5
(`validateHookCommands` in `hooks-manager.ts`, not in the snapshot) — runs
the per-entry checks over every owned entry of the merged view; when no
owned hook is installed at all it reports the single `NoHooksInstalled`
error; `valid` is true iff the error list is empty and at least one owned
hook is installed. -/
def validateHookCommands (owns : String → Bool) (pathExists : String → Bool)
    (cliPath : String) (o : Option SettingsDocument) : ValidationResult :=
  let owned := ownedTagged owns (hooksOf o)
  if owned.isEmpty then ⟨false, [.noHooksInstalled]⟩
  else
    let errs := (owned.map (entryErrors pathExists cliPath)).flatten
    ⟨errs.isEmpty, errs⟩

/-- C9: validate is valid exactly when its error list is empty and at
least one owned hook is installed; a missing executable path yields a
CommandNotFound diagnostic, a path differing from the canonical tool path
yields a PathMismatch diagnostic, and absence of any owned hook yields the
single NoHooksInstalled error instead of trivial validity. -/
theorem C9_validate_errors (owns : String → Bool) (pathExists : String → Bool)
    (cliPath : String) (o : Option SettingsDocument) :
    ((validateHookCommands owns pathExists cliPath o).valid = true ↔
      ((validateHookCommands owns pathExists cliPath o).errors = [] ∧
        ownedTagged owns (hooksOf o) ≠ [])) ∧
    (ownedTagged owns (hooksOf o) = [] →
      (validateHookCommands owns pathExists cliPath o).errors =
        [.noHooksInstalled]) ∧
    (∀ te ∈ ownedTagged owns (hooksOf o),
      pathExists (commandPath te.2.command) = false →
      ValidationError.commandNotFound (commandPath te.2.command) ∈
        (validateHookCommands owns pathExists cliPath o).errors) ∧
    (∀ te ∈ ownedTagged owns (hooksOf o),
      commandPath te.2.command ≠ cliPath →
      ValidationError.pathMismatch te.1 (commandPath te.2.command) ∈
        (validateHookCommands owns pathExists cliPath o).errors) := by
  by_cases hemp : (ownedTagged owns (hooksOf o)).isEmpty = true
  · rw [List.isEmpty_iff] at hemp
    refine ⟨?_, fun _ => ?_, ?_, ?_⟩
    · simp [validateHookCommands, hemp]
    · simp [validateHookCommands, hemp]
    · intro te hte
      rw [hemp] at hte
      cases hte
    · intro te hte
      rw [hemp] at hte
      cases hte
  · rw [Bool.not_eq_true] at hemp
    have hne : ownedTagged owns (hooksOf o) ≠ [] := by
      intro h0
      rw [h0] at hemp
      simp at hemp
    have hmem : ∀ te ∈ ownedTagged owns (hooksOf o),
        ∀ x ∈ entryErrors pathExists cliPath te,
        x ∈ (validateHookCommands owns pathExists cliPath o).errors := by
      intro te hte x hx
      simp only [validateHookCommands, hemp, Bool.false_eq_true, if_false]
      rw [List.mem_flatten]
      exact ⟨entryErrors pathExists cliPath te, List.mem_map.mpr ⟨te, hte, rfl⟩, hx⟩
    refine ⟨?_, fun h0 => absurd h0 hne, ?_, ?_⟩
    · simp only [validateHookCommands, hemp, Bool.false_eq_true, if_false]
      rw [List.isEmpty_iff]
      exact ⟨fun h => ⟨h, hne⟩, fun h => h.1⟩
    · intro te hte hpe
      refine hmem te hte _ ?_
      rw [entryErrors, List.mem_append]
      left
      simp [hpe]
    · intro te hte hpm
      refine hmem te hte _ ?_
      rw [entryErrors, List.mem_append]
      right
      simp [hpm]

/-- The durable state of one settings layer on disk: the committed
document readers observe, and a leftover temporary file if any. -/
structure LayerFile where
  committed : Option SettingsDocument
  temp : Option SettingsDocument
deriving DecidableEq

/-- The typed persistence error (spec section 7). -/
inductive PersistError
  | persistenceFailed
deriving DecidableEq

/-- How far the serialize → write-temp → rename pipeline of `write` got
before stopping. -/
inductive WriteFault
  | noFault
  | tempWriteFail
  | renameFail
  | crashBeforeRename
deriving DecidableEq

/-- Modelled from the spec: the atomic `write(layer, document)` of section
4.1 (the writer of `hooks-manager.ts` is not in the snapshot) — serialize,
write to a temporary path in the same directory, rename over the
destination.  Rename is the atomicity boundary: on success the new
document is committed; a failed temp write or a failed rename discards the
temporary file, reports `PersistenceFailed` and leaves the committed
document untouched; a crash before the rename (result `none`) leaves the
previous committed document intact with the temporary file abandoned. -/
def writeSettings (fs : LayerFile) (d : SettingsDocument) (fault : WriteFault) :
    Option (Except PersistError Unit) × LayerFile :=
  match fault with
  | .noFault => (some (.ok ()), ⟨some d, none⟩)
  | .tempWriteFail => (some (.error .persistenceFailed), ⟨fs.committed, none⟩)
  | .renameFail => (some (.error .persistenceFailed), ⟨fs.committed, none⟩)
  | .crashBeforeRename => (none, ⟨fs.committed, some d⟩)

/-- Modelled from the spec: a load at the persistence layer reads only the
committed file, never the temporary file (section 4.1, invariant I4). -/
def loadCommitted (fs : LayerFile) : Option SettingsDocument := fs.committed

/-- C2: every settings write is atomic — the committed document is always
either the old one or the fully written new one (readers never observe a
partially written document); whenever the write did not succeed (rename or
temp-write failure reported as `PersistenceFailed`, or a crash before the
rename) a subsequent load returns the pre-operation document unchanged. -/
theorem C2_atomic_write (fs : LayerFile) (d : SettingsDocument) (fault : WriteFault) :
    ((writeSettings fs d fault).2.committed = fs.committed ∨
      (writeSettings fs d fault).2.committed = some d) ∧
    ((writeSettings fs d fault).1 ≠ some (.ok ()) →
      loadCommitted (writeSettings fs d fault).2 = loadCommitted fs) ∧
    (fault = .renameFail →
      (writeSettings fs d fault).1 = some (.error .persistenceFailed)) ∧
    (fault = .tempWriteFail →
      (writeSettings fs d fault).1 = some (.error .persistenceFailed)) ∧
    (fault = .crashBeforeRename →
      (writeSettings fs d fault).1 = none ∧
      (writeSettings fs d fault).2.committed = fs.committed) := by
  cases fault <;> simp [writeSettings, loadCommitted]

/-- A lock file on disk: its modification time in milliseconds, its
content, and whether the stat and unlink calls fail on it. -/
structure LockFile where
  mtimeMs : Int
  content : String
  statFails : Bool
  unlinkFails : Bool
deriving DecidableEq

/-- The state of the `~/.devark` directory the upload lock lives in. -/
structure DevArkDir where
  uploadLock : Option LockFile
deriving DecidableEq

/-- The 5-minute staleness threshold in milliseconds, from
`lockAge > 5 * 60 * 1000` in the source. -/
def staleThresholdMs : Int := 5 * 60 * 1000

/-- Shallow embedding of `isUploadRunning` from the source: stat the lock
file — a missing or unstatable file lands in the catch-all and yields
false; compute `lockAge = now - stats.mtimeMs`; when the age exceeds five
minutes delete the file best-effort (ignoring unlink failure) and yield
false; otherwise yield true.  Returns the flag and the resulting directory
state; the lock file's content is never consulted. -/
def isUploadRunning (now : Int) (fs : DevArkDir) : Bool × DevArkDir :=
  match fs.uploadLock with
  | none => (false, fs)
  | some f =>
    if f.statFails then (false, fs)
    else if now - f.mtimeMs > staleThresholdMs then
      (false, if f.unlinkFails then fs else ⟨none⟩)
    else (true, fs)

/-- Shallow embedding of `createUploadLock` from the source: write the
lock file whose entire content is the current process id rendered as a
string; its modification time becomes the current time. -/
def createUploadLock (now : Int) (pid : Nat) (_fs : DevArkDir) : DevArkDir :=
  ⟨some ⟨now, toString pid, false, false⟩⟩

/-- The result of a lock acquisition attempt (spec section 4.6). -/
inductive AcquireResult
  | locked
  | alreadyLocked
deriving DecidableEq

/-- Modelled from the spec: `acquire(scope)` of section 4.6 (`hook-lock.ts`
is not in the snapshot), composed from the repository's `isUploadRunning`
staleness check and `createUploadLock`: when no live lock is found
(missing, or stale and reclaimed) a fresh lock is created and held;
otherwise the acquisition fails with `AlreadyLocked` and the existing lock
is left untouched. -/
def acquireUploadLock (now : Int) (pid : Nat) (fs : DevArkDir) :
    AcquireResult × DevArkDir :=
  let r := isUploadRunning now fs
  if r.1 then (.alreadyLocked, r.2)
  else (.locked, createUploadLock now pid r.2)

/-- C6: with an existing (statable) lock record, a new acquire reclaims
the lock — deleting and recreating it with the new owner — exactly when
its age exceeds the 300-second staleness threshold; a younger or equally
old lock makes acquire fail with AlreadyLocked, leaving the existing lock
untouched. -/
theorem C6_stale_reclaim (now : Int) (pid : Nat) (f : LockFile)
    (hstat : f.statFails = false) :
    staleThresholdMs = 300 * 1000 ∧
    (now - f.mtimeMs > 300 * 1000 →
      acquireUploadLock now pid ⟨some f⟩ =
        (.locked, ⟨some ⟨now, toString pid, false, false⟩⟩)) ∧
    (now - f.mtimeMs ≤ 300 * 1000 →
      acquireUploadLock now pid ⟨some f⟩ = (.alreadyLocked, ⟨some f⟩)) ∧
    ((acquireUploadLock now pid ⟨some f⟩).1 = .locked ↔
      now - f.mtimeMs > 300 * 1000) := by
  have hth : staleThresholdMs = 300 * 1000 := by norm_num [staleThresholdMs]
  refine ⟨hth, ?_⟩
  rw [← hth]
  by_cases hage : staleThresholdMs < now - f.mtimeMs
  · refine ⟨fun _ => ?_, fun hle => absurd hage (not_lt.mpr hle), ?_⟩
    · simp [acquireUploadLock, isUploadRunning, createUploadLock, hstat, hage]
    · simp [acquireUploadLock, isUploadRunning, createUploadLock, hstat, hage]
  · refine ⟨fun hgt => absurd hgt hage, fun _ => ?_, ?_⟩
    · simp [acquireUploadLock, isUploadRunning, hstat, hage]
    · simp [acquireUploadLock, isUploadRunning, createUploadLock, hstat, hage]

/-- C10: the lock carries no stored acquisition timestamp —
`createUploadLock` writes a file whose entire content is the process id,
and `isUploadRunning` judges staleness solely from the file's modification
time: it is total, returns true exactly when the lock file exists, is
statable, and is at most 5 minutes old, deletes a stale file best-effort,
and its verdict never depends on the file's content. -/
theorem C10_upload_lock_shape (now : Int) (fs : DevArkDir) (pid : Nat) :
    ((isUploadRunning now fs).1 = true ↔
      ∃ f, fs.uploadLock = some f ∧ f.statFails = false ∧
        now - f.mtimeMs ≤ staleThresholdMs) ∧
    ((createUploadLock now pid fs).uploadLock = some ⟨now, toString pid, false, false⟩) ∧
    (∀ f, fs.uploadLock = some f → f.statFails = false →
      now - f.mtimeMs > staleThresholdMs → f.unlinkFails = false →
      (isUploadRunning now fs).2.uploadLock = none) ∧
    (∀ f c, (isUploadRunning now ⟨some { f with content := c }⟩).1 =
      (isUploadRunning now ⟨some f⟩).1) := by
  refine ⟨?_, rfl, ?_, ?_⟩
  · cases hfs : fs.uploadLock with
    | none => simp [isUploadRunning, hfs]
    | some f =>
      by_cases hstat : f.statFails = true
      · simp [isUploadRunning, hfs, hstat]
      · rw [Bool.not_eq_true] at hstat
        by_cases hage : now - f.mtimeMs > staleThresholdMs
        · simp only [isUploadRunning, hfs, hstat, Bool.false_eq_true, if_false,
            hage, if_true]
          constructor
          · intro h
            cases h
          · rintro ⟨f', hf', _, hle⟩
            rw [Option.some.injEq] at hf'
            subst hf'
            exact absurd hage (not_lt.mpr hle)
        · simp only [isUploadRunning, hfs, hstat, Bool.false_eq_true, if_false,
            hage, if_false]
          constructor
          · intro _
            exact ⟨f, rfl, hstat, not_lt.mp hage⟩
          · intro _
            trivial
  · intro f hf hstat hage hunlink
    simp [isUploadRunning, hf, hstat, hage, hunlink]
  · intro f c
    by_cases hstat : f.statFails = true
    · simp [isUploadRunning, hstat]
    · rw [Bool.not_eq_true] at hstat
      by_cases hage : now - f.mtimeMs > staleThresholdMs
      · simp [isUploadRunning, hstat, hage]
      · simp [isUploadRunning, hstat, hage]

/-- Concrete ownership predicate used for witnesses, mirroring the test
fixture: exactly the command installed by the tool. -/
def wOwns : String → Bool := fun c => c == "/usr/local/bin/devark send"

/-- Concrete settings document of the spec's concrete scenario: one
`PreCompact` group holding two foreign entries around one owned entry,
plus a preserved unrelated top-level key. -/
def wDoc : SettingsDocument :=
  ⟨some [(.PreCompact, [⟨"", [⟨"command", "echo a"⟩,
    ⟨"command", "/usr/local/bin/devark send"⟩, ⟨"command", "echo b"⟩]⟩])],
    [("otherKey", "v")]⟩

/-- The document the spec's concrete scenario expects after uninstall. -/
def wDocAfter : SettingsDocument :=
  ⟨some [(.PreCompact, [⟨"", [⟨"command", "echo a"⟩, ⟨"command", "echo b"⟩]⟩])],
    [("otherKey", "v")]⟩

/-- C1 witness: the spec's concrete scenario evaluated. -/
theorem C1_witness :
    foreignEntries wOwns (some wDocAfter) = foreignEntries wOwns (some wDoc) :=
  C1_uninstall_preserves_foreign wOwns wDoc wDocAfter (by rfl)

/-- C2 witness: a failed rename reports PersistenceFailed at a concrete
state. -/
theorem C2_witness :
    (writeSettings ⟨some wDoc, none⟩ wDocAfter .renameFail).1 =
      some (.error .persistenceFailed) :=
  (C2_atomic_write ⟨some wDoc, none⟩ wDocAfter .renameFail).2.2.1 rfl

/-- C3 witness: the hooks key survives in the concrete scenario because a
trigger remains. -/
theorem C3_witness :
    wDocAfter.hooks = none ↔ uninstallHooksMap wOwns (hooksOf (some wDoc)) = [] :=
  (C3_uninstall_cleanup_cascade wOwns wDoc wDocAfter (by rfl)).2.1

/-- C4 witness: uninstall on an empty hooks object fails with
NoHooksFound. -/
theorem C4_witness :
    uninstallDevArkHooks wOwns (some ⟨some [], []⟩) = .error .noHooksFound :=
  (C4_uninstall_noHooksFound wOwns (some ⟨some [], []⟩)).1.mpr (by simp [hooksOf])

/-- C5 witness: installing an already-present command is a no-op success
at a concrete document. -/
theorem C5_witness :
    installHook (some wDoc) .PreCompact "" "/usr/local/bin/devark send" =
      (wDoc, false) :=
  (C5_install_idempotent (some wDoc) .PreCompact "" "/usr/local/bin/devark send").1
    (by rfl)

/-- C6 witness: a 400-second-old lock is reclaimed by a concrete acquire. -/
theorem C6_witness :
    acquireUploadLock 400000 77 ⟨some ⟨0, "123", false, false⟩⟩ =
      (.locked, ⟨some ⟨400000, toString 77, false, false⟩⟩) :=
  (C6_stale_reclaim 400000 77 ⟨0, "123", false, false⟩ rfl).2.1 (by decide)

/-- C7 witness: install into an absent document then status reports
SessionStart installed. -/
theorem C7_witness :
    triggerInstalled wOwns
      (some (installHook none .SessionStart "" "/usr/local/bin/devark send").1)
      .SessionStart = true :=
  (C7_install_status_roundtrip wOwns none "" "/usr/local/bin/devark send" (by rfl)).1

/-- C8 witness: a file whose content does not parse degrades to the empty
read result. -/
theorem C8_witness :
    readClaudeSettings (fun _ => none) (.content "invalid json") =
      ⟨none, none, emptySettings⟩ :=
  (C8_load_degrades (fun _ => none) "invalid json" rfl).2.2.2

/-- C9 witness: a missing executable path yields the CommandNotFound
diagnostic at a concrete document. -/
theorem C9_witness :
    ValidationError.commandNotFound "/usr/local/bin/devark" ∈
      (validateHookCommands wOwns (fun _ => false) "/usr/local/bin/devark"
        (some wDoc)).errors :=
  (C9_validate_errors wOwns (fun _ => false) "/usr/local/bin/devark" (some wDoc)).2.2.1
    (.PreCompact, ⟨"command", "/usr/local/bin/devark send"⟩) (by decide) rfl

/-- C10 witness: a fresh statable lock reports an upload as running. -/
theorem C10_witness :
    (isUploadRunning 100 ⟨some ⟨0, "9", false, false⟩⟩).1 = true :=
  (C10_upload_lock_shape 100 ⟨some ⟨0, "9", false, false⟩⟩ 9).1.mpr
    ⟨⟨0, "9", false, false⟩, rfl, rfl, by decide⟩

end DevArk
